import Mathlib

/-!
# A verified model of the notebook's lazy-sequence abstraction

The repository is a notebook demonstrating lazy iteration idioms
(generator expressions, itertools chain/islice/count/cycle, map/filter).
Its specification distils these demonstrations into a single component,
a pull-based single-pass `LazySequence`, whose contract is given purely
behaviourally: `next()` returns the next value or the terminal outcome
`Exhausted`; combinators (`chain`, `filterSeq`, `slice`, `cycle`,
`countFrom`) wrap sequences; `toEagerList` drains, demanding a limit on
infinite sequences.

This file embeds that component as an explicit state machine.  A
sequence state records the values still to be produced: either a finite
list of remaining values or an infinite rule giving the value at each
remaining position.  `next` returns the head outcome and the advanced
state; all observations in the theorems go through `next` and the
drain operations built on it.
-/

set_option autoImplicit false

namespace LazyEval

universe u

variable {α : Type u}

/-- Modelled from the spec: the outcome of a `next()` call is an explicit
tagged result, either the next value or the terminal `Exhausted` state,
never an exception. -/
inductive NextResult (α : Type u) where
  | value : α → NextResult α
  | Exhausted : NextResult α
  deriving DecidableEq, Repr

/-- Modelled from the spec: the result of `toEagerList`, either a concrete
ordered collection of drained values or the `InvalidArgument` failure
signalled when an infinite sequence is drained without a bound. -/
inductive EagerResult (α : Type u) where
  | ok : List α → EagerResult α
  | invalidArgument : EagerResult α
  deriving DecidableEq, Repr

/-- Modelled from the spec: the state of a `LazySequence` cursor, i.e. the
values it has not yet produced.  A finite sequence holds the list of its
remaining values; an infinite sequence (a generator rule such as
`countFrom` or `cycle` over a non-empty collection) holds the rule giving
the value at each remaining position. -/
inductive LazySequence (α : Type u) where
  | finite : List α → LazySequence α
  | infinite : (ℕ → α) → LazySequence α

namespace LazySequence

/-- Modelled from the spec: wrap a finite ordered in-memory collection as
a lazy sequence (the collection's values become the remaining values). -/
def ofList (l : List α) : LazySequence α := .finite l

/-- Modelled from the spec: `next()` returns the next value, or `Exhausted`
if no more values exist, and advances the internal cursor by exactly one
position, irreversibly.  On an already-exhausted sequence it returns
`Exhausted` again and the state is unchanged. -/
def next : LazySequence α → NextResult α × LazySequence α
  | .finite [] => (.Exhausted, .finite [])
  | .finite (v :: rest) => (.value v, .finite rest)
  | .infinite f => (.value (f 0), .infinite (fun n => f (n + 1)))

/-- The state after `k` successive `next()` calls (returned values are
discarded). -/
def advance : ℕ → LazySequence α → LazySequence α
  | 0, s => s
  | k + 1, s => advance k (next s).2

/-- The outcome of the `(k+1)`-th `next()` call on `s` (counting from
`k = 0`). -/
def nthNext (s : LazySequence α) (k : ℕ) : NextResult α :=
  (next (advance k s)).1

/-- Pull at most `n` values via successive `next()` calls, stopping early
at `Exhausted`; returns the pulled values in order together with the state
left behind. -/
def takeN : ℕ → LazySequence α → List α × LazySequence α
  | 0, s => ([], s)
  | n + 1, s =>
    match next s with
    | (.Exhausted, s2) => ([], s2)
    | (.value v, s2) =>
      let r := takeN n s2
      (v :: r.1, r.2)

/-- Modelled from the spec: `chain(seqA, seqB)` yields all of `seqA`'s
remaining values, then all of `seqB`'s, in order, and exhausts when both
are exhausted.  When `seqA` is infinite its values are never all produced,
so `seqB` is never reached. -/
def chain : LazySequence α → LazySequence α → LazySequence α
  | .finite a, .finite b => .finite (a ++ b)
  | .finite a, .infinite g =>
    .infinite (fun n => if h : n < a.length then a.get ⟨n, h⟩ else g (n - a.length))
  | .infinite f, _ => .infinite f

/-- Modelled from the spec: the pull loop of `filterSeq` over the remaining
values of a finite sequence: pull until the predicate holds or the source
exhausts; skipped values are discarded, not buffered. -/
def filterPull (p : α → Bool) : List α → List α
  | [] => []
  | v :: rest => if p v then v :: filterPull p rest else filterPull p rest

/-- Modelled from the spec: `filterSeq(seq, predicate)` yields exactly the
values of `seq` satisfying the predicate, in order.  A single pull of a
filter over an infinite rule-based sequence is an unbounded search, which
has no total model; the spec exercises `filterSeq` only on finite
sequences, so the model returns `none` on an infinite input and the
filtered sequence (as `some`) on a finite one. -/
def filterSeq : LazySequence α → (α → Bool) → Option (LazySequence α)
  | .finite l, p => some (.finite (filterPull p l))
  | .infinite _, _ => none

/-- Modelled from the spec: `slice(seq, start, stop)` discards the first
`start` values, then yields up to `stop - start` further values, stopping
early if the source exhausts first.  Consuming the slice consumes the
parent, so the result pairs the yielded values with the advanced parent
state. -/
def slice (s : LazySequence α) (start stop : ℕ) : List α × LazySequence α :=
  takeN (stop - start) (advance start s)

/-- Modelled from the spec: `cycle(collection)` over a non-empty finite
collection restarts from the first element after each full pass and never
exhausts; over an empty collection there is nothing to produce. -/
def cycle : List α → LazySequence α
  | [] => .finite []
  | v :: rest => .infinite (fun n => (v :: rest).getD (n % (v :: rest).length) v)

/-- Modelled from the spec: `countFrom(start, step)` is the infinite
sequence `start`, `start + step`, `start + 2*step`, ...; a pure arithmetic
rule with no stored source. -/
def countFrom (start step : ℚ) : LazySequence ℚ :=
  .infinite (fun k => start + k * step)

/-- Modelled from the spec: `toEagerList(limit?)` drains some or all
remaining values into a concrete ordered collection; with a limit it pulls
at most that many values; without a limit it drains everything, which on
an infinite sequence fails with `InvalidArgument`. -/
def toEagerList (s : LazySequence α) (limit : Option ℕ) : EagerResult α :=
  match limit with
  | some m => .ok (takeN m s).1
  | none =>
    match s with
    | .finite l => .ok (takeN l.length (.finite l)).1
    | .infinite _ => .invalidArgument

end LazySequence

/-- Modelled from the spec: a sequence backed by a reference to a mutable
underlying collection plus a cursor.  The sequence takes no snapshot: each
`next()` reads the collection at the cursor position at consumption time,
so the collection is passed at every call, allowing external mutation
between calls to be observed. -/
def sourceNext (coll : List α) (cursor : ℕ) : NextResult α × ℕ :=
  match coll.get? cursor with
  | some v => (.value v, cursor + 1)
  | none => (.Exhausted, cursor)

/-- Pull at most `n` values from a collection-backed sequence, stopping
early at `Exhausted`; returns the values read and the final cursor. -/
def sourceTakeN (coll : List α) (cursor : ℕ) : ℕ → List α × ℕ
  | 0 => ([], cursor)
  | n + 1 =>
    match sourceNext coll cursor with
    | (.Exhausted, c2) => ([], c2)
    | (.value v, c2) =>
      let r := sourceTakeN coll c2 n
      (v :: r.1, r.2)

/-- Modelled from the spec: external mutation of the underlying collection
at one index (the documented no-snapshot hazard). -/
def mutate (coll : List α) (i : ℕ) (v : α) : List α := coll.set i v

namespace LazySequence

/-- Advancing a finite sequence `k` steps drops its first `k` remaining
values. -/
theorem advance_finite (l : List α) (k : ℕ) :
    advance k (.finite l) = .finite (l.drop k) := by
  induction k generalizing l with
  | zero => simp [advance]
  | succ k ih =>
    cases l with
    | nil => simpa [advance, next] using ih []
    | cons v rest => simpa [advance, next] using ih rest

/-- Advancing an infinite sequence `k` steps shifts its rule by `k`. -/
theorem advance_infinite (f : ℕ → α) (k : ℕ) :
    advance k (.infinite f) = .infinite (fun n => f (k + n)) := by
  induction k generalizing f with
  | zero => exact congrArg LazySequence.infinite (funext fun n => by rw [Nat.zero_add])
  | succ k ih =>
    show advance k (.infinite fun n => f (n + 1)) = _
    rw [ih]
    exact congrArg LazySequence.infinite (funext fun n => by congr 1; omega)

/-- On a finite sequence, the call at position `k < length` produces the
`k`-th value. -/
theorem nthNext_finite_lt (l : List α) (k : ℕ) (h : k < l.length) :
    nthNext (.finite l) k = .value l[k] := by
  unfold nthNext
  rw [advance_finite, List.drop_eq_getElem_cons h]
  rfl

/-- On a finite sequence, every call at position `k ≥ length` returns
`Exhausted`. -/
theorem nthNext_finite_ge (l : List α) (k : ℕ) (h : l.length ≤ k) :
    nthNext (.finite l) k = .Exhausted := by
  unfold nthNext
  rw [advance_finite, List.drop_eq_nil_iff.mpr h]
  rfl

/-- On an infinite sequence, the call at position `k` produces the rule's
value at `k`. -/
theorem nthNext_infinite (f : ℕ → α) (k : ℕ) :
    nthNext (.infinite f) k = .value (f k) := by
  unfold nthNext
  rw [advance_infinite]
  show NextResult.value (f (k + 0)) = _
  rw [Nat.add_zero]

/-- Pulling `n` values from a finite sequence takes its first `n`
remaining values and leaves the rest. -/
theorem takeN_finite (l : List α) (n : ℕ) :
    takeN n (.finite l) = (l.take n, .finite (l.drop n)) := by
  induction n generalizing l with
  | zero => simp [takeN]
  | succ n ih =>
    cases l with
    | nil => simp [takeN, next]
    | cons v rest => simp [takeN, next, ih]

/-- Pulling `n` values from an infinite sequence yields the rule's first
`n` values and leaves the rule shifted by `n`. -/
theorem takeN_infinite (f : ℕ → α) (n : ℕ) :
    takeN n (.infinite f) = ((List.range n).map f, .infinite (fun k => f (n + k))) := by
  induction n generalizing f with
  | zero =>
    show (([] : List α), LazySequence.infinite f) = _
    rw [List.range_zero, List.map_nil]
    exact congrArg (Prod.mk []) (congrArg LazySequence.infinite (funext fun k => by rw [Nat.zero_add]))
  | succ n ih =>
    have hl : (List.range (n + 1)).map f = f 0 :: (List.range n).map (fun m => f (m + 1)) := by
      simp [List.range_succ_eq_map, List.map_map, Function.comp]
    have hs : (fun k => f (n + k + 1)) = (fun k => f ((n + 1) + k)) :=
      funext fun k => by congr 1; omega
    calc takeN (n + 1) (.infinite f)
        = (f 0 :: (takeN n (.infinite fun m => f (m + 1))).1,
           (takeN n (.infinite fun m => f (m + 1))).2) := rfl
      _ = (f 0 :: (List.range n).map (fun m => f (m + 1)),
           .infinite (fun k => f (n + k + 1))) := by rw [ih]
      _ = ((List.range (n + 1)).map f, .infinite (fun k => f ((n + 1) + k))) := by
            rw [hl, hs]

/-- Draining a finite sequence without a limit returns all of its
remaining values. -/
theorem toEagerList_finite_none (l : List α) :
    toEagerList (.finite l) none = .ok l := by
  show EagerResult.ok (takeN l.length (.finite l)).1 = _
  rw [takeN_finite, List.take_length]

/-- The pull loop of the filter agrees with list filtering. -/
theorem filterPull_eq_filter (p : α → Bool) (l : List α) :
    filterPull p l = l.filter p := by
  induction l with
  | nil => rfl
  | cons v rest ih =>
    by_cases hp : p v <;> simp [filterPull, List.filter_cons, hp, ih]

/-- Two stacked filter pull loops behave as one loop with the
conjunction of the predicates. -/
theorem filterPull_filterPull (p q : α → Bool) (l : List α) :
    filterPull q (filterPull p l) = filterPull (fun v => p v && q v) l := by
  induction l with
  | nil => rfl
  | cons v rest ih =>
    by_cases hp : p v <;> by_cases hq : q v <;>
      simp [filterPull, hp, hq, ih]

/-- A bounded pull returns at most the requested number of values. -/
theorem takeN_length_le (n : ℕ) (s : LazySequence α) :
    (takeN n s).1.length ≤ n := by
  induction n generalizing s with
  | zero => simp [takeN]
  | succ n ih =>
    match s with
    | .finite [] => simp [takeN, next]
    | .finite (v :: rest) =>
      simpa [takeN, next] using ih (.finite rest)
    | .infinite f =>
      simpa [takeN, next] using ih (.infinite fun m => f (m + 1))

end LazySequence

/-- A collection-backed pull of `n` values starting at cursor `c`, all in
bounds, reads exactly positions `c, ..., c + n - 1` of the collection at
consumption time and advances the cursor to `c + n`. -/
theorem sourceTakeN_eq (coll : List α) (c n : ℕ) (h : c + n ≤ coll.length) :
    sourceTakeN coll c n = ((coll.drop c).take n, c + n) := by
  induction n generalizing c with
  | zero => simp [sourceTakeN]
  | succ n ih =>
    have hc : c < coll.length := by omega
    have hv : coll.get? c = some coll[c] := by
      rw [List.get?_eq_getElem?]
      exact List.getElem?_eq_getElem hc
    have hrec := ih (c + 1) (by omega)
    calc sourceTakeN coll c (n + 1)
        = (coll[c] :: (sourceTakeN coll (c + 1) n).1, (sourceTakeN coll (c + 1) n).2) := by
          simp only [sourceTakeN, sourceNext, hv]
      _ = (coll[c] :: (coll.drop (c + 1)).take n, c + 1 + n) := by rw [hrec]
      _ = ((coll.drop c).take (n + 1), c + (n + 1)) := by
          rw [List.drop_eq_getElem_cons hc, List.take_succ_cons]
          congr 1
          omega

open LazySequence

/-- C1: a finite lazy sequence of length `n` returns a value on each of its
first `n` `next()` calls (the value at that position), the `(n+1)`-th call
returns `Exhausted`, and so does every subsequent call — an idempotent
terminal state expressed as an explicit tagged result, not an
exception. -/
theorem claim_C1_finite_exhaustion {α : Type u} (l : List α) (k : ℕ) :
    (∀ h : k < l.length, nthNext (.finite l) k = .value (l.get ⟨k, h⟩)) ∧
    (l.length ≤ k → nthNext (.finite l) k = .Exhausted) :=
  ⟨fun h => nthNext_finite_lt l k h, fun h => nthNext_finite_ge l k h⟩

/-- Witness for C1 on the two-element sequence `[10, 20]`: calls 0 and 1
return the two values, and calls 2 and 5 both return `Exhausted`. -/
theorem claim_C1_finite_exhaustion_witness :
    nthNext (.finite [10, 20]) 0 = .value 10 ∧
    nthNext (.finite [10, 20]) 1 = .value 20 ∧
    nthNext (.finite [10, 20]) 2 = .Exhausted ∧
    nthNext (.finite [10, 20]) 5 = .Exhausted :=
  ⟨(claim_C1_finite_exhaustion [10, 20] 0).1 (by decide),
   (claim_C1_finite_exhaustion [10, 20] 1).1 (by decide),
   (claim_C1_finite_exhaustion [10, 20] 2).2 (by decide),
   (claim_C1_finite_exhaustion [10, 20] 5).2 (by decide)⟩

/-- C2: sequences are single-pass: after `k` values have been consumed from
a finite sequence of length `n`, a full drain of the same instance returns
exactly the `n - k` remaining values in their original order, so a value
produced at an earlier step is never produced again by that instance. -/
theorem claim_C2_single_pass {α : Type u} (l : List α) (k : ℕ)
    (_h : k ≤ l.length) :
    toEagerList (advance k (.finite l)) none = .ok (l.drop k) ∧
    (l.drop k).length = l.length - k := by
  constructor
  · rw [advance_finite, toEagerList_finite_none]
  · rw [List.length_drop]

/-- Witness for C2: consuming 2 values of `[4, 5, 6]` leaves a drain of
exactly the remaining suffix `[6]`. -/
theorem claim_C2_single_pass_witness :
    toEagerList (advance 2 (.finite [4, 5, 6])) none = .ok ([4, 5, 6].drop 2) ∧
    ([4, 5, 6].drop 2).length = [4, 5, 6].length - 2 :=
  claim_C2_single_pass [4, 5, 6] 2 (by decide)

/-- C3: no snapshot is taken of the underlying collection: consuming the
first `k` positions returns the collection's original values there, and if
index `j ≥ k` is mutated before being consumed, continuing to consume up
to position `j` observes the mutated value at that position. -/
theorem claim_C3_no_snapshot {α : Type u} (coll : List α) (k j : ℕ) (v : α)
    (hkj : k ≤ j) (hj : j < coll.length) :
    (sourceTakeN coll 0 k).1 = coll.take k ∧
    (sourceTakeN coll 0 k).2 = k ∧
    ((sourceTakeN (mutate coll j v) k (j + 1 - k)).1).get? (j - k) = some v := by
  have hk : k ≤ coll.length := le_trans hkj (le_of_lt hj)
  have h0 := sourceTakeN_eq coll 0 k (by omega)
  have hlen : (mutate coll j v).length = coll.length := List.length_set coll j v
  have h1 := sourceTakeN_eq (mutate coll j v) k (j + 1 - k) (by omega)
  refine ⟨?_, ?_, ?_⟩
  · rw [h0, List.drop_zero]
  · rw [h0]
    exact Nat.zero_add k
  · rw [h1]
    rw [List.get?_eq_getElem?, List.getElem?_take]
    rw [if_pos (by omega), List.getElem?_drop]
    have hkj2 : k + (j - k) = j := by omega
    rw [hkj2]
    exact List.getElem?_set_self (by omega)

/-- Witness for C3, the notebook's scenario: over `[1,2,3,4,5]`, two values
are consumed, index 2 is then mutated to 999, and the position holding that
element observes 999 when finally consumed. -/
theorem claim_C3_no_snapshot_witness :
    (sourceTakeN [1, 2, 3, 4, 5] 0 2).1 = [1, 2, 3, 4, 5].take 2 ∧
    (sourceTakeN [1, 2, 3, 4, 5] 0 2).2 = 2 ∧
    ((sourceTakeN (mutate [1, 2, 3, 4, 5] 2 999) 2 (2 + 1 - 2)).1).get? (2 - 2)
      = some 999 :=
  claim_C3_no_snapshot [1, 2, 3, 4, 5] 2 2 999 (by decide) (by decide)

/-- C4: `chain(seqA, seqB)` yields all of `seqA`'s remaining values in
order, then all of `seqB`'s, and becomes `Exhausted` exactly after both are
exhausted; over `A = [1,2]`, `B = [3]` three calls yield 1, 2, 3 and the
fourth returns `Exhausted`. -/
theorem claim_C4_chain {α : Type u} (a b : List α) :
    (takeN (a.length + b.length) (chain (.finite a) (.finite b))).1 = a ++ b ∧
    (∀ k, k < a.length + b.length →
      ∃ v, nthNext (chain (.finite a) (.finite b)) k = .value v) ∧
    (∀ k, a.length + b.length ≤ k →
      nthNext (chain (.finite a) (.finite b)) k = .Exhausted) ∧
    (takeN 3 (chain (.finite [1, 2]) (.finite [3]))).1 = [1, 2, 3] ∧
    nthNext (chain (.finite [1, 2]) (.finite [3])) 3 = .Exhausted := by
  have hcf : chain (LazySequence.finite a) (LazySequence.finite b)
      = .finite (a ++ b) := rfl
  refine ⟨?_, ?_, ?_, by decide, by decide⟩
  · rw [hcf, takeN_finite]
    show (a ++ b).take (a.length + b.length) = a ++ b
    rw [← List.length_append, List.take_length]
  · intro k hk
    rw [hcf]
    exact ⟨_, nthNext_finite_lt (a ++ b) k (by rw [List.length_append]; omega)⟩
  · intro k hk
    rw [hcf]
    exact nthNext_finite_ge (a ++ b) k (by rw [List.length_append]; omega)

/-- Witness for C4 at `A = [1,2]`, `B = [3]`: three values, then the fourth
call is `Exhausted`. -/
theorem claim_C4_chain_witness :
    (takeN 3 (chain (.finite [1, 2]) (.finite [3]))).1 = [1, 2] ++ [3] ∧
    (∃ v, nthNext (chain (.finite [1, 2]) (.finite [3])) 2 = .value v) ∧
    nthNext (chain (.finite [1, 2]) (.finite [3])) 3 = .Exhausted := by
  obtain ⟨h1, h2, h3, -, -⟩ := claim_C4_chain [1, 2] [3]
  exact ⟨h1, h2 2 (by decide), h3 3 (by decide)⟩

/-- C5: `slice(seq, start, stop)` discards the first `start` values, then
yields up to `stop - start` further values, stopping early if the source
exhausts first (so it yields `min (stop - start) (n - start)` values on a
source with `n` remaining); on an infinite source it yields the values at
positions `start, ..., stop - 1`; `slice([1,2,3,4,5], 1, 4)` yields
`[2,3,4]`. -/
theorem claim_C5_slice {α : Type u} (l : List α) (f : ℕ → α) (start stop : ℕ)
    (_h : start ≤ stop) :
    (LazySequence.slice (.finite l) start stop).1
      = (l.drop start).take (stop - start) ∧
    (LazySequence.slice (.finite l) start stop).1.length
      = min (stop - start) (l.length - start) ∧
    (LazySequence.slice (.infinite f) start stop).1
      = (List.range (stop - start)).map (fun k => f (start + k)) ∧
    (LazySequence.slice (ofList [1, 2, 3, 4, 5]) 1 4).1 = [2, 3, 4] := by
  have h1 : (LazySequence.slice (LazySequence.finite l) start stop).1
      = (l.drop start).take (stop - start) := by
    unfold LazySequence.slice
    rw [advance_finite, takeN_finite]
  refine ⟨h1, ?_, ?_, by decide⟩
  · rw [h1, List.length_take, List.length_drop]
  · unfold LazySequence.slice
    rw [advance_infinite, takeN_infinite]

/-- Witness for C5 at the spec's example `slice([1,2,3,4,5], 1, 4)`. -/
theorem claim_C5_slice_witness :
    (LazySequence.slice (.finite [1, 2, 3, 4, 5]) 1 4).1 = ([2, 3, 4] : List ℕ) := by
  obtain ⟨h1, -, -, -⟩ := claim_C5_slice [1, 2, 3, 4, 5] (fun n => n) 1 4 (by decide)
  rw [h1]
  decide

/-- C6: `filterSeq(seq, p)` yields exactly the values of `seq` satisfying
`p`, in their original order; `filterSeq([1,2,3,4], isEven)` drained
eagerly yields `[2,4]`. -/
theorem claim_C6_filter {α : Type u} (l : List α) (p : α → Bool) :
    filterSeq (.finite l) p = some (.finite (l.filter p)) ∧
    (filterSeq (.finite l) p).map (fun s => toEagerList s none)
      = some (.ok (l.filter p)) ∧
    (filterSeq (ofList [1, 2, 3, 4]) (fun n => n % 2 == 0)).map
      (fun s => toEagerList s none) = some (.ok [2, 4]) := by
  have h1 : filterSeq (LazySequence.finite l) p
      = some (.finite (l.filter p)) := by
    show some (LazySequence.finite (filterPull p l)) = _
    rw [filterPull_eq_filter]
  refine ⟨h1, ?_, by decide⟩
  rw [h1]
  show some (toEagerList (LazySequence.finite (l.filter p)) none) = _
  rw [toEagerList_finite_none]

/-- C7: `cycle` over a non-empty finite collection never exhausts and its
value at position `i` is the collection's element at index
`i mod length`; the first 7 values of a 3-element cycle repeat the
collection and restart. -/
theorem claim_C7_cycle {α : Type u} [Inhabited α] (c : List α) (hc : c ≠ [])
    (i : ℕ) :
    nthNext (cycle c) i = .value (c.getD (i % c.length) default) ∧
    nthNext (cycle c) i ≠ .Exhausted ∧
    (takeN 7 (cycle [0, 1, 2])).1 = [0, 1, 2, 0, 1, 2, 0] := by
  cases c with
  | nil => exact absurd rfl hc
  | cons v rest =>
    have hmod : i % (v :: rest).length < (v :: rest).length :=
      Nat.mod_lt _ (Nat.succ_pos _)
    have h1 : nthNext (cycle (v :: rest)) i
        = .value ((v :: rest).getD (i % (v :: rest).length) v) := by
      show nthNext (.infinite _) i = _
      rw [nthNext_infinite]
    refine ⟨?_, ?_, by decide⟩
    · rw [h1, List.getD_eq_getElem _ v hmod, List.getD_eq_getElem _ default hmod]
    · rw [h1]
      intro hcon
      exact NextResult.noConfusion hcon

/-- Witness for C7 on the cycle over `[10, 20, 30]` at position 7. -/
theorem claim_C7_cycle_witness :
    nthNext (cycle [10, 20, 30]) 7
      = .value ([10, 20, 30].getD (7 % [10, 20, 30].length) default) ∧
    nthNext (cycle [10, 20, 30]) 7 ≠ .Exhausted :=
  ⟨(claim_C7_cycle [10, 20, 30] (by decide) 7).1,
   (claim_C7_cycle [10, 20, 30] (by decide) 7).2.1⟩

/-- C8: `countFrom(start, step)` is infinite and its value at position `k`
is `start + k * step`; consuming `countFrom(0, 1/4)` through two
consecutive 5-element slices (the second starting from the state the first
left behind) yields `[0, 1/4, 1/2, 3/4, 1]` and then
`[5/4, 3/2, 7/4, 2, 9/4]`, so the cursor persists across slice calls. -/
theorem claim_C8_countFrom (start step : ℚ) (k : ℕ) :
    nthNext (countFrom start step) k = .value (start + k * step) ∧
    (LazySequence.slice (countFrom 0 (1/4)) 0 5).1
      = [0, 1/4, 1/2, 3/4, 1] ∧
    (LazySequence.slice ((LazySequence.slice (countFrom 0 (1/4)) 0 5).2) 0 5).1
      = [5/4, 3/2, 7/4, 2, 9/4] := by
  refine ⟨?_, ?_, ?_⟩
  · show nthNext (.infinite fun n => start + n * step) k = _
    rw [nthNext_infinite]
  · show (takeN 5 (.infinite fun n => (0 : ℚ) + n * (1/4))).1 = _
    rw [takeN_infinite]
    norm_num [List.range_succ]
  · show (takeN 5 ((takeN 5 (.infinite fun n => (0 : ℚ) + n * (1/4))).2)).1 = _
    rw [takeN_infinite]
    norm_num [takeN_infinite, List.range_succ]

/-- C9: draining an infinite sequence without a limit fails with
`InvalidArgument` (in particular `toEagerList()` on `countFrom(0, 1)`),
while a drain with a limit returns a concrete list of at most that many
values. -/
theorem claim_C9_toEagerList {α : Type u} (f : ℕ → α) (s : LazySequence α)
    (m : ℕ) :
    toEagerList (.infinite f) none = .invalidArgument ∧
    toEagerList (countFrom 0 1) none = .invalidArgument ∧
    ∃ l, toEagerList s (some m) = .ok l ∧ l.length ≤ m :=
  ⟨rfl, rfl, ⟨(takeN m s).1, rfl, takeN_length_le m s⟩⟩

/-- C10: stacked filters compose conjunctively: filtering a finite
sequence with `p` and then with `q` produces the same sequence — hence the
same values in the same order — as one filter with the conjunction of `p`
and `q`. -/
theorem claim_C10_filter_compose {α : Type u} (l : List α) (p q : α → Bool) :
    (filterSeq (.finite l) p).bind (fun s => filterSeq s q)
      = filterSeq (.finite l) (fun v => p v && q v) ∧
    ((filterSeq (.finite l) p).bind (fun s => filterSeq s q)).map
        (fun s => toEagerList s none)
      = some (.ok (l.filter (fun v => p v && q v))) := by
  have h1 : (filterSeq (LazySequence.finite l) p).bind (fun s => filterSeq s q)
      = filterSeq (.finite l) (fun v => p v && q v) := by
    show some (LazySequence.finite (filterPull q (filterPull p l))) = _
    rw [filterPull_filterPull]
    show _ = some (LazySequence.finite (filterPull (fun v => p v && q v) l))
    rfl
  refine ⟨h1, ?_⟩
  rw [h1]
  show some (toEagerList (LazySequence.finite
    (filterPull (fun v => p v && q v) l)) none) = _
  rw [filterPull_eq_filter, toEagerList_finite_none]

end LazyEval
